import Mathlib

set_option autoImplicit false

namespace Md2Overleaf

/-! # Embedding of the md2overleaf export pipeline

The source (`src/main.ts`) manipulates JavaScript strings with regular
expressions and `String.prototype.replace`, and drives a staging/upload
pipeline around them.  We embed text as `List Char` (with `String`
wrappers at the interface) and translate each regular expression of the
source into an explicit, executable matcher.  Scanners that walk the
whole text take a fuel argument (instantiated with the text length by
the wrappers) so that every definition is structurally recursive and
computes by `decide`/`rfl`; each scanner step consumes at least one
character, so fuel equal to the text length never runs out.  The file
system is modelled as a partial map from paths to file contents, and
fallible operations return `Option`. -/

/-! ## Basic character/string utilities -/

/-- JS whitespace test for the regex class `\s` (ASCII range; the texts
involved contain only ASCII whitespace). -/
def isSpaceJS (c : Char) : Bool :=
  c == ' ' || c == '\t' || c == '\n' || c == '\r' || c == Char.ofNat 11 || c == Char.ofNat 12

/-- Match a literal sequence of characters at the head of the input,
returning the remainder on success. -/
def matchLit : List Char → List Char → Option (List Char)
  | [], cs => some cs
  | _ :: _, [] => none
  | l :: ls, c :: cs => if c = l then matchLit ls cs else none

/-- Model of node's `path.join` for the path shapes occurring in this
program (plain relative segments: no trailing separators, no `.`/`..`
segments, for which node's join is plain concatenation with one `/`). -/
def pathJoin (a b : String) : String := a ++ "/" ++ b

/-- Replace back-slashes by forward slashes
(source: `relPath.replace(/\\/g, "/")`, line 113). -/
def normSlash (l : List Char) : List Char :=
  l.map (fun c => if c = '\\' then '/' else c)

/-- The work-list element recorded for each plain image reference
(source: `const toCopy: Array<{abs:string, rel:string}>`, line 106). -/
structure AssetCopyTask where
  abs : String
  rel : String
  deriving DecidableEq, Repr

/-- `pat` occurs as a contiguous substring of `s`. -/
def ContainsSub (pat s : List Char) : Prop := ∃ b a, s = b ++ pat ++ a

/-- `s` starts with the characters `p`. -/
def LeadsWith (p s : List Char) : Prop := ∃ r, s = p ++ r

/-! ## Pattern A: bounded-image wrapper

Source regex (line 109):
`/\\pandocbounded\{\s*\\includegraphics(?:\[[^\]]*\])?\{(pictures\/[^}]+)\}\s*\}/g` -/

def pandocLit : List Char := ("\\pandocbounded\x7b").data

def includegraphicsLit : List Char := ("\\includegraphics").data

def picturesLit : List Char := ("pictures/").data

/-- The optional group `(?:\[[^\]]*\])?`: an optional bracketed option
list.  (If a `[` is present but unclosed, the whole match fails: the
regex engine would retry without the group, and then `\{` cannot match
the `[`.) -/
def optBracket : List Char → Option (List Char)
  | [] => some []
  | c :: cs =>
      if c = '[' then
        match cs.dropWhile (fun x => !(x == ']')) with
        | [] => none
        | _ :: ds => some ds
      else some (c :: cs)

/-- Try to match the Pattern-A regex at the head of the input.  On
success, returns the captured relative path (capture group 1) and the
remainder of the text after the whole match. -/
def matchBounded (cs : List Char) : Option (List Char × List Char) :=
  match matchLit pandocLit cs with
  | none => none
  | some cs1 =>
    match matchLit includegraphicsLit (cs1.dropWhile isSpaceJS) with
    | none => none
    | some cs3 =>
      match optBracket cs3 with
      | none => none
      | some cs4 =>
        match cs4 with
        | [] => none
        | c4 :: cs5 =>
          if c4 = '{' then
            match matchLit picturesLit cs5 with
            | none => none
            | some cs6 =>
              match cs6.dropWhile (fun c => !(c == '}')) with
              | [] => none
              | _ :: rest2 =>
                if (cs6.takeWhile (fun c => !(c == '}'))).isEmpty then none
                else
                  match rest2.dropWhile isSpaceJS with
                  | [] => none
                  | e :: rest4 =>
                    if e = '}' then some (picturesLit ++ cs6.takeWhile (fun c => !(c == '}')), rest4)
                    else none
          else none

/-! ## The global Pattern-A rewrite

Source (lines 111–117):
```
tex = tex.replace(reBounded, (_full, relPath) => {
  const abs = path.join(vaultPath, relPath);
  const relNormalized = relPath.replace(/\\/g, "/");
  toCopy.push({ abs, rel: relNormalized });
  return `\\includegraphics[width=\\linewidth]{${relNormalized}}`;
});
```
`String.replace` with a `/g` regex and a function replacement scans the
text left to right, replacing each non-overlapping match by the value
the callback returns (function return values are inserted literally),
and runs the callback side effect once per match in match order. -/

def directiveOpen : List Char := ("\\includegraphics[width=\\linewidth]\x7b").data

/-- The canonical image-inclusion directive for a relative path. -/
def includeDirective (rel : List Char) : List Char := directiveOpen ++ rel ++ ['}']

/-- The task recorded by the Pattern-A replacement callback. -/
def mkAssetTask (vault : String) (cap : List Char) : AssetCopyTask :=
  { abs := pathJoin vault (String.mk cap), rel := String.mk (normSlash cap) }

/-- One left-to-right pass of the Pattern-A replacement, producing the
rewritten text together with the recorded copy tasks (in match order). -/
def rewriteBoundedF (vault : String) : Nat → List Char → List Char × List AssetCopyTask
  | 0, cs => (cs, [])
  | _ + 1, [] => ([], [])
  | fuel + 1, c :: cs =>
    match matchBounded (c :: cs) with
    | some (cap, rest) =>
      let r := rewriteBoundedF vault fuel rest
      (includeDirective (normSlash cap) ++ r.1, mkAssetTask vault cap :: r.2)
    | none =>
      let r := rewriteBoundedF vault fuel cs
      (c :: r.1, r.2)

/-- The list of Pattern-A captures, leftmost first, non-overlapping
(the match list of `reBounded` with the `/g` flag). -/
def matchesBoundedF : Nat → List Char → List (List Char)
  | 0, _ => []
  | _ + 1, [] => []
  | fuel + 1, c :: cs =>
    match matchBounded (c :: cs) with
    | some (cap, rest) => cap :: matchesBoundedF fuel rest
    | none => matchesBoundedF fuel cs

/-- Text-only description of the Pattern-A pass, following the spec's
words: each bounded-image wrapper is replaced by the canonical directive
on the normalized relative path, everything else is left unchanged. -/
def canonicalBoundedF : Nat → List Char → List Char
  | 0, cs => cs
  | _ + 1, [] => []
  | fuel + 1, c :: cs =>
    match matchBounded (c :: cs) with
    | some (cap, rest) => includeDirective (normSlash cap) ++ canonicalBoundedF fuel rest
    | none => c :: canonicalBoundedF fuel cs

def rewriteBounded (vault tex : String) : String × List AssetCopyTask :=
  (String.mk (rewriteBoundedF vault tex.data.length tex.data).1,
   (rewriteBoundedF vault tex.data.length tex.data).2)

def matchesBounded (tex : String) : List (List Char) :=
  matchesBoundedF tex.data.length tex.data

def canonicalBounded (tex : String) : String :=
  String.mk (canonicalBoundedF tex.data.length tex.data)

/-! ## JS `String.prototype.replace` with a plain-string pattern

Used by the source at line 50 (`p.replace("${vault}", vaultPath)`) and
at lines 177/182 (`tex.replace(full, replacement)`).  A string pattern
means: the first occurrence of the pattern is replaced, and the
replacement string undergoes `$`-substitution (`$$`, `$&`, a backquote
or a quote after `$`; `$n` stays literal because a string pattern has
no capture groups). -/

/-- Split a text around the first occurrence of `pat`, if any. -/
def splitFirstOcc (pat : List Char) : List Char → Option (List Char × List Char)
  | [] =>
    match matchLit pat [] with
    | some rest => some ([], rest)
    | none => none
  | c :: cs =>
    match matchLit pat (c :: cs) with
    | some rest => some ([], rest)
    | none =>
      match splitFirstOcc pat cs with
      | some (b, a) => some (c :: b, a)
      | none => none

/-- ES `GetSubstitution` for a string pattern: `$$` → `$`, `$&` → the
matched text, `$` followed by a backquote → the text before the match,
`$` followed by a quote → the text after the match; anything else after
`$` is literal. -/
def getSubstitution (matched before after : List Char) : List Char → List Char
  | [] => []
  | c :: cs =>
    if c = '$' then
      match cs with
      | [] => ['$']
      | d :: cs' =>
        if d = '$' then '$' :: getSubstitution matched before after cs'
        else if d = '&' then matched ++ getSubstitution matched before after cs'
        else if d = Char.ofNat 96 then before ++ getSubstitution matched before after cs'
        else if d = Char.ofNat 39 then after ++ getSubstitution matched before after cs'
        else c :: d :: getSubstitution matched before after cs'
    else c :: getSubstitution matched before after cs

/-- JS `s.replace(pat, repl)` with both arguments plain strings. -/
def jsReplaceFirst (s pat repl : List Char) : List Char :=
  match splitFirstOcc pat s with
  | none => s
  | some (b, a) => b ++ getSubstitution pat b a repl ++ a

/-! ## JS `trim` and node's `basename` -/

def jsTrimL (l : List Char) : List Char :=
  ((l.dropWhile isSpaceJS).reverse.dropWhile isSpaceJS).reverse

def jsTrim (s : String) : String := String.mk (jsTrimL s.data)

/-- The final path segment (node `path.basename`, posix, for paths
without trailing separators). -/
def nodeBasename (p : String) : List Char :=
  (p.data.reverse.takeWhile (fun c => !(c == '/'))).reverse

def endsWithL (l ext : List Char) : Bool := (matchLit ext.reverse l.reverse).isSome

/-- Node `path.basename(p, ext)`: the final segment, with `ext`
stripped when the segment ends with it and is not equal to it. -/
def nodeBasenameExt (p ext : String) : String :=
  if nodeBasename p = ext.data then String.mk (nodeBasename p)
  else if endsWithL (nodeBasename p) ext.data then
    String.mk ((nodeBasename p).take ((nodeBasename p).length - ext.data.length))
  else String.mk (nodeBasename p)

/-! ## Pattern B: escaped tldraw embed links

Source regex (line 121):
`/!\{\[\}\{\[\}(pictures\/[^{}]+?\.md)\{\]\}\{\]\}/g` -/

def bangLit : List Char := ("!\x7b[\x7d\x7b[\x7d").data

def closeBrLit : List Char := ("\x7b]\x7d\x7b]\x7d").data

def mdLit : List Char := (".md").data

def mdCloseLit : List Char := (".md\x7b]\x7d\x7b]\x7d").data

/-- Lazy body of the capture `[^{}]+?` followed by the literal
`.md{]}{]}`: consume at least one non-brace character, then after each
consumed character test for the closing literal — the shortest body
wins. -/
def scanTldrawBody : List Char → Option (List Char × List Char)
  | [] => none
  | c :: cs =>
    if c = '{' ∨ c = '}' then none
    else
      match matchLit mdCloseLit cs with
      | some rest => some ([c], rest)
      | none =>
        match scanTldrawBody cs with
        | some (b, rest) => some (c :: b, rest)
        | none => none

/-- Try to match the Pattern-B regex at the head of the input.  On
success, returns the whole matched text (`match[0]`), the capture
(`match[1]`) and the remainder after the match. -/
def matchTldraw (cs : List Char) : Option (List Char × List Char × List Char) :=
  match matchLit bangLit cs with
  | none => none
  | some cs1 =>
    match matchLit picturesLit cs1 with
    | none => none
    | some cs2 =>
      match scanTldrawBody cs2 with
      | none => none
      | some (b, rest) =>
        some (bangLit ++ (picturesLit ++ b ++ mdLit) ++ closeBrLit,
              picturesLit ++ b ++ mdLit, rest)

/-- All Pattern-B matches, leftmost first, non-overlapping (the list
`Array.from(tex.matchAll(reTldrawEscaped))`, line 168), as
(full text, capture) pairs. -/
def matchesTldrawF : Nat → List Char → List (List Char × List Char)
  | 0, _ => []
  | _ + 1, [] => []
  | fuel + 1, c :: cs =>
    match matchTldraw (c :: cs) with
    | some (full, cap, rest) => (full, cap) :: matchesTldrawF fuel rest
    | none => matchesTldrawF fuel cs

def matchesTldraw (tex : String) : List (List Char × List Char) :=
  matchesTldrawF tex.data.length tex.data

/-! ## The fenced tldraw payload block

Source regex (line 126): `/```tldraw\s*\n([\s\S]*?)```/` -/

def ticksLit : List Char := ("```").data

def tldrawOpenLit : List Char := ("```tldraw").data

/-- The lazy payload `([\s\S]*?)` up to the closing triple backquote. -/
def scanToTicks : List Char → Option (List Char × List Char)
  | [] =>
    match matchLit ticksLit [] with
    | some r => some ([], r)
    | none => none
  | c :: cs =>
    match matchLit ticksLit (c :: cs) with
    | some r => some ([], r)
    | none =>
      match scanToTicks cs with
      | some (p, r) => some (c :: p, r)
      | none => none

/-- Try to match the fenced-block regex at the head of the input.
`\s*\n` is a whitespace run that ends at its last newline (greedy `\s*`
with backtracking into the required `\n`). -/
def fenceTldrawAt (cs : List Char) : Option (List Char) :=
  match matchLit tldrawOpenLit cs with
  | none => none
  | some cs1 =>
    let rev := (cs1.takeWhile isSpaceJS).reverse.dropWhile (fun c => !(c == '\n'))
    if rev.isEmpty then none
    else
      match scanToTicks (cs1.drop rev.length) with
      | some (payload, _) => some payload
      | none => none

def fenceTldrawF : Nat → List Char → Option (List Char)
  | 0, _ => none
  | _ + 1, [] => none
  | fuel + 1, c :: cs =>
    match fenceTldrawAt (c :: cs) with
    | some payload => some payload
    | none => fenceTldrawF fuel cs

/-- `src.match(/```tldraw\s*\n([\s\S]*?)```/)`: the payload of the first
fenced tldraw block, if any. -/
def fenceTldraw (src : String) : Option (List Char) :=
  fenceTldrawF src.data.length src.data

/-! ## File-system model -/

/-- A file system: a partial map from absolute paths to file contents.
`none` models an unreadable/missing file (a read that would throw). -/
abbrev FS : Type := String → Option String

def fsEmpty : FS := fun _ => none

def fsSet (fs : FS) (k v : String) : FS := fun x => if x = k then some v else fs x

/-! ## The embedded-drawing exporter

Source (lines 123–165), `exportTldrawMdToPng`.  The whole body is
wrapped in `try/catch` returning `null`, so the function never throws:
we model every fallible step by `Option`.  The raster-conversion `exec`
is fire-and-forget: its outcome does not influence the returned value,
so it does not appear in the result. -/

def exportTldrawMdToPng (fs : FS) (stageRoot mdAbs : String) : Option (String × String) :=
  match fs mdAbs with
  | none => none
  | some src =>
    match fenceTldraw src with
    | none => none
    | some _ =>
      some ("pictures/" ++ nodeBasenameExt mdAbs (".md") ++ ".png",
            pathJoin stageRoot ("pictures/" ++ nodeBasenameExt mdAbs (".md") ++ ".png"))

def commentOpenLit : List Char := ("% [md2overleaf] missing tldraw export for ").data

/-- The warning comment inserted when a tldraw export fails
(source line 181). -/
def commentFor (relMd : String) : List Char := commentOpenLit ++ relMd.data

/-- The text substituted for one Pattern-B match (source lines 170–183):
on successful export a canonical image-inclusion directive on the raster
relative path, otherwise a warning comment naming the relative target
(the `exported?.pngRel && exported?.pngAbs` truthiness test also sends
empty strings to the comment branch). -/
def tldrawReplacement (fs : FS) (vault stageRoot : String) (cap : List Char) : List Char :=
  match exportTldrawMdToPng fs stageRoot (pathJoin vault (jsTrim (String.mk cap))) with
  | some (pngRel, pngAbs) =>
    if pngRel.data.isEmpty || pngAbs.data.isEmpty then commentFor (jsTrim (String.mk cap))
    else includeDirective pngRel.data
  | none => commentFor (jsTrim (String.mk cap))

/-- The Pattern-B replacement loop (source lines 168–184): for each
collected match, in order, replace the first occurrence of its full
matched text by the computed replacement (plain-string `replace`). -/
def processTldraw (fs : FS) (vault stageRoot : String) :
    List (List Char × List Char) → List Char → List Char
  | [], t => t
  | m :: ms, t =>
    processTldraw fs vault stageRoot ms
      (jsReplaceFirst t m.1 (tldrawReplacement fs vault stageRoot m.2))

/-- The complete reference-rewrite step on one LaTeX text buffer:
Pattern-A substitution (lines 111–117), then the Pattern-B match list of
the resulting text is collected (line 168) and each match replaced
(lines 168–184). -/
def rewriteTexText (fs : FS) (vault stageRoot : String) (tex : String) : String :=
  String.mk (processTldraw fs vault stageRoot
    (matchesTldraw (rewriteBounded vault tex).1)
    ((rewriteBounded vault tex).1).data)

/-- The copy tasks recorded by the reference-rewrite step (only the
Pattern-A pass records tasks). -/
def rewriteTexTasks (vault : String) (tex : String) : List AssetCopyTask :=
  (rewriteBounded vault tex).2

/-- Claim-side variant of the rewrite step with the ordering stated by
the spec: the Pattern-B match list is collected from the text *before*
the Pattern-A substitution is applied to it. -/
def specOrderedRewrite (fs : FS) (vault stageRoot : String) (tex : String) : String :=
  String.mk (processTldraw fs vault stageRoot
    (matchesTldraw tex)
    ((rewriteBounded vault tex).1).data)

/-! ## Settings and the external converter invocation -/

/-- Source lines 8–12. -/
structure Md2OverleafSettings where
  scriptPath : String
  uploadHost : String
  autoOpen : Bool
  deriving DecidableEq, Repr

/-- Source lines 14–18. -/
def DEFAULT_SETTINGS : Md2OverleafSettings :=
  { scriptPath := "$\x7bvault\x7d/mdtex.sh"
    uploadHost := "https://transfer.sh"
    autoOpen := true }

def vaultTokenLit : List Char := ("$\x7bvault\x7d").data

/-- Source line 50: `const expand = (p) => p.replace("${vault}", vaultPath)`. -/
def expand (p vaultPath : String) : String :=
  String.mk (jsReplaceFirst p.data vaultTokenLit vaultPath.data)

/-- Claim-side description of `expand`: the placeholder's first
occurrence replaced by the root path *string itself* (no
`$`-processing). -/
def substToken (p v : String) : String :=
  match splitFirstOcc vaultTokenLit p.data with
  | none => p
  | some (b, a) => String.mk (b ++ v.data ++ a)

/-- Source line 57 (computed but never used by the invocation). -/
def expandedScript (s : Md2OverleafSettings) (vaultPath : String) : String :=
  expand s.scriptPath vaultPath

/-- The converter subprocess invocation (source lines 59–69): the
command string and the working directory handed to `exec`. -/
def converterInvocation (s : Md2OverleafSettings) (vaultPath filePath : String) :
    String × String :=
  let _ := expandedScript s vaultPath
  ("./mdtex.sh -v \"" ++ filePath ++ "\"", vaultPath)

/-- Claim-side description of the converter command: the configured
converter script (placeholder expanded) followed by `-v` and the quoted
source path. -/
def claimConverterCmd (s : Md2OverleafSettings) (vaultPath filePath : String) : String :=
  expand s.scriptPath vaultPath ++ " -v \"" ++ filePath ++ "\""

/-! ## The stage builder's asset-copy loop

Source (lines 187–198): for each recorded task, ensure the destination
directory, check the source's existence, copy it or log a warning; then
write the rewritten LaTeX into the stage root. -/

def copyAssets (stageRoot : String) : FS → List AssetCopyTask → FS × List String
  | fs, [] => (fs, [])
  | fs, t :: ts =>
    match fs t.abs with
    | some c => copyAssets stageRoot (fsSet fs (pathJoin stageRoot t.rel) c) ts
    | none => ((copyAssets stageRoot fs ts).1, t.abs :: (copyAssets stageRoot fs ts).2)

/-- The copy loop followed by the write of the staged LaTeX
(line 198); returns the resulting file system and the list of
missing-source warnings, in loop order. -/
def buildStage (stageRoot stagedTexPath : String) (fs : FS) (tasks : List AssetCopyTask)
    (tex : String) : FS × List String :=
  (fsSet (copyAssets stageRoot fs tasks).1 stagedTexPath tex,
   (copyAssets stageRoot fs tasks).2)

/-! ## Title derivation

Source (lines 205–206):
```
const baseNoExt = base.replace(/\.tex$/i, "");
const niceTitle = baseNoExt.replace(/[_-]+/g, " ").replace(/\s+/g, " ").trim();
``` -/

def texExtLit : List Char := (".tex").data

def stripTexExt (base : String) : String :=
  if endsWithL (base.data.map Char.toLower) texExtLit then
    String.mk (base.data.take (base.data.length - 4))
  else base

def isSepChar (c : Char) : Bool := c == '_' || c == '-'

/-- Replace every maximal run of characters satisfying `p` by a single
space (the `/g` replace of `[...]+` by a space). -/
def collapseRunsF (p : Char → Bool) : Nat → List Char → List Char
  | 0, cs => cs
  | _ + 1, [] => []
  | fuel + 1, c :: cs =>
    if p c then ' ' :: collapseRunsF p fuel (cs.dropWhile p)
    else c :: collapseRunsF p fuel cs

def niceTitle (base : String) : String :=
  jsTrim (String.mk
    (collapseRunsF isSpaceJS
      (collapseRunsF isSepChar (stripTexExt base).data.length (stripTexExt base).data).length
      (collapseRunsF isSepChar (stripTexExt base).data.length (stripTexExt base).data)))

/-! ## Upload command, URL extraction and the Overleaf deep link

Source (lines 235–254). -/

/-- Source line 235. -/
def uploadCmd (outDir base : String) : String :=
  "cd \"" ++ outDir ++ "\" && curl bashupload.app -T \"" ++ base ++ ".zip\""

/-- Claim-side description of the upload command as the fixed string
`curl bashupload.app -T "<base>.zip"`. -/
def claimUploadCmd (base : String) : String :=
  "curl bashupload.app -T \"" ++ base ++ ".zip\""

/-- Source line 254. -/
def overleafUrl (zipUrl base : String) : String :=
  "https://www.overleaf.com/docs?snip_uri=" ++ zipUrl ++ "&engine=xelatex&name=" ++ base

def httpsDomainLit : List Char := ("https://bashupload.app/").data

def httpDomainLit : List Char := ("http://bashupload.app/").data

/-- Try to match `https?:\/\/bashupload\.app\/\S+` at the head of the
input, returning the whole matched text.  (After `http`, the optional
`s` and the following `://` are mutually exclusive, so trying the two
full literals in either order is equivalent.) -/
def matchUrlAt (cs : List Char) : Option (List Char) :=
  match matchLit httpsDomainLit cs with
  | some cs1 =>
    if (cs1.takeWhile (fun c => !(isSpaceJS c))).isEmpty then none
    else some (httpsDomainLit ++ cs1.takeWhile (fun c => !(isSpaceJS c)))
  | none =>
    match matchLit httpDomainLit cs with
    | some cs1 =>
      if (cs1.takeWhile (fun c => !(isSpaceJS c))).isEmpty then none
      else some (httpDomainLit ++ cs1.takeWhile (fun c => !(isSpaceJS c)))
    | none => none

def extractUrlF : Nat → List Char → Option (List Char)
  | 0, _ => none
  | _ + 1, [] => none
  | fuel + 1, c :: cs =>
    match matchUrlAt (c :: cs) with
    | some m => some m
    | none => extractUrlF fuel cs

/-- `stdout.match(/https?:\/\/bashupload\.app\/\S+/)` (line 245): the
first (leftmost) match, if any. -/
def extractBashuploadUrl (s : String) : Option (List Char) :=
  extractUrlF s.data.length s.data

/-- Observable outcome of the upload callback (lines 238–263). -/
inductive UploadOutcome where
  | uploadFailed : UploadOutcome
  | noUrlFound : UploadOutcome
  | linkOpened : String → UploadOutcome
  | linkShown : String → UploadOutcome
  deriving DecidableEq, Repr

/-- The upload `exec` callback (lines 238–263): on failure a notice; on
success scan stdout for the first hosting-domain URL; without one a
distinct "no URL found" notice and no deep link; with one, compose the
deep link and open or show it according to `autoOpen`. -/
def uploadCallback (s : Md2OverleafSettings) (base : String) (exitOk : Bool)
    (stdout : String) : UploadOutcome :=
  if exitOk then
    match extractBashuploadUrl stdout with
    | none => UploadOutcome.noUrlFound
    | some u =>
      if s.autoOpen then UploadOutcome.linkOpened (overleafUrl (jsTrim (String.mk u)) base)
      else UploadOutcome.linkShown (overleafUrl (jsTrim (String.mk u)) base)
  else UploadOutcome.uploadFailed

/-! ## Pipeline observables (for settings-independence properties) -/

structure PipelineObservables where
  converterCmd : String
  converterCwd : String
  texText : String
  copyTasks : List AssetCopyTask
  uploadCommand : String
  uploadResult : UploadOutcome

/-- The observable behaviour of one export invocation as a function of
the settings record and the external inputs (vault root, active file
path, file system, converter-produced LaTeX, upload exit status and
captured stdout). -/
def exportPipeline (s : Md2OverleafSettings) (vault filePath : String) (fs : FS)
    (tex : String) (uploadExitOk : Bool) (uploadStdout : String) : PipelineObservables :=
  let base := nodeBasenameExt filePath (".md")
  let outDir := pathJoin (pathJoin vault (".md2overleaf")) base
  let stageRoot := pathJoin outDir ("__stage__")
  { converterCmd := (converterInvocation s vault filePath).1
    converterCwd := (converterInvocation s vault filePath).2
    texText := rewriteTexText fs vault stageRoot tex
    copyTasks := rewriteTexTasks vault tex
    uploadCommand := uploadCmd outDir base
    uploadResult := uploadCallback s base uploadExitOk uploadStdout }

/-! # Theorems -/

/-! ## Generic list lemmas -/

theorem matchLit_eq_append : ∀ (ls cs r : List Char), matchLit ls cs = some r → cs = ls ++ r
  | [], cs, r, h => by
      simp only [matchLit, Option.some.injEq] at h
      simpa using h
  | _ :: _, [], _, h => by simp [matchLit] at h
  | l :: ls, c :: cs, r, h => by
      by_cases hc : c = l
      · subst hc
        simp only [matchLit, if_pos rfl] at h
        simpa using matchLit_eq_append ls cs r h
      · simp [matchLit, hc] at h

theorem matchLit_length {ls cs r : List Char} (h : matchLit ls cs = some r) :
    cs.length = ls.length + r.length := by
  have := matchLit_eq_append ls cs r h
  subst this
  simp [Nat.add_comm]

theorem matchLit_self_append (l r : List Char) : matchLit l (l ++ r) = some r := by
  induction l with
  | nil => rfl
  | cons c cs ih => simp [matchLit, ih]

theorem dropWhile_length_le (p : Char → Bool) : ∀ l : List Char, (l.dropWhile p).length ≤ l.length
  | [] => Nat.le_refl _
  | c :: cs => by
      by_cases h : p c
      · rw [List.dropWhile_cons_of_pos h]
        exact Nat.le_succ_of_le (dropWhile_length_le p cs)
      · rw [List.dropWhile_cons_of_neg h]

theorem dropWhile_eq_self_of_none (p : Char → Bool) :
    ∀ l : List Char, (∀ c ∈ l, ¬ p c = true) → l.dropWhile p = l
  | [], _ => rfl
  | c :: cs, h => by
    rw [List.dropWhile_cons_of_neg (h c (List.mem_cons_self c cs))]

theorem normSlash_no_backslash (l : List Char) : ¬ '\\' ∈ normSlash l := by
  intro h
  rcases List.mem_map.mp h with ⟨c, _, hc⟩
  by_cases hb : c = '\\' <;> simp [hb] at hc

theorem normSlash_picturesLit : normSlash picturesLit = picturesLit := by decide

theorem jsTrimL_eq_self (l : List Char) (h : ∀ c ∈ l, ¬ isSpaceJS c = true) :
    jsTrimL l = l := by
  unfold jsTrimL
  rw [dropWhile_eq_self_of_none _ l h,
      dropWhile_eq_self_of_none _ l.reverse (fun c hc => h c (List.mem_reverse.mp hc)),
      List.reverse_reverse]

/-! ## Pattern-A matcher lemmas -/

theorem optBracket_length_le (cs r : List Char) (h : optBracket cs = some r) :
    r.length ≤ cs.length := by
  unfold optBracket at h
  split at h
  · cases h
    exact Nat.le_refl _
  · rename_i c cs'
    split at h
    · split at h
      · exact Option.noConfusion h
      · rename_i hd
        cases h
        have h1 := dropWhile_length_le (fun x => !(x == ']')) cs'
        rw [hd] at h1
        simp only [List.length_cons] at h1 ⊢
        omega
    · cases h
      exact Nat.le_refl _

/-- Structure of a successful Pattern-A match: the capture is the
literal `pictures/` followed by a non-empty brace-free body, and the
match consumes at least one character (so the global scan always makes
progress). -/
theorem matchBounded_spec (cs cap rest : List Char)
    (h : matchBounded cs = some (cap, rest)) :
    (∃ body, body ≠ [] ∧ cap = picturesLit ++ body) ∧ rest.length < cs.length := by
  unfold matchBounded at h
  split at h
  · exact Option.noConfusion h
  rename_i cs1 h1
  split at h
  · exact Option.noConfusion h
  rename_i cs3 h2
  split at h
  · exact Option.noConfusion h
  rename_i cs4 h3
  split at h
  · exact Option.noConfusion h
  rename_i c4 cs5
  split at h
  case isFalse => exact Option.noConfusion h
  rename_i hc4
  split at h
  · exact Option.noConfusion h
  rename_i cs6 h5
  split at h
  · exact Option.noConfusion h
  rename_i d rest2 h6
  split at h
  case isTrue => exact Option.noConfusion h
  rename_i hbe
  split at h
  · exact Option.noConfusion h
  rename_i e rest4 h7
  split at h
  case isFalse => exact Option.noConfusion h
  rename_i he
  rw [Option.some.injEq, Prod.mk.injEq] at h
  obtain ⟨hcap, hrest⟩ := h
  subst hrest
  constructor
  · refine ⟨cs6.takeWhile (fun c => !(c == '}')), ?_, hcap.symm⟩
    simpa [List.isEmpty_iff] using hbe
  · have l7 : rest4.length < rest2.length := by
      have := h7 ▸ dropWhile_length_le isSpaceJS rest2
      simp only [List.length_cons] at this
      omega
    have l6 : rest2.length < cs6.length := by
      have := h6 ▸ dropWhile_length_le (fun c => !(c == '}')) cs6
      simp only [List.length_cons] at this
      omega
    have l5 : cs6.length ≤ cs5.length := by
      have := matchLit_length h5; omega
    have l4 : cs5.length < cs3.length := by
      have := optBracket_length_le cs3 _ h3
      simp only [List.length_cons] at this
      omega
    have l3 : cs3.length ≤ cs1.length := by
      have := matchLit_length h2
      have := dropWhile_length_le isSpaceJS cs1
      omega
    have l1 : cs1.length < cs.length := by
      have h0 := matchLit_length h1
      have hp : pandocLit.length = 15 := by decide
      omega
    omega

/-! ## Pattern-A scan lemmas -/

theorem rewriteBoundedF_tasks (vault : String) : ∀ (fuel : Nat) (cs : List Char),
    (rewriteBoundedF vault fuel cs).2 = (matchesBoundedF fuel cs).map (mkAssetTask vault)
  | 0, _ => rfl
  | _ + 1, [] => rfl
  | fuel + 1, c :: cs => by
    rcases h : matchBounded (c :: cs) with _ | ⟨cap, rest⟩
    · simp only [rewriteBoundedF, matchesBoundedF, h]
      exact rewriteBoundedF_tasks vault fuel cs
    · simp only [rewriteBoundedF, matchesBoundedF, h, List.map_cons]
      rw [rewriteBoundedF_tasks vault fuel rest]

theorem rewriteBoundedF_text (vault : String) : ∀ (fuel : Nat) (cs : List Char),
    (rewriteBoundedF vault fuel cs).1 = canonicalBoundedF fuel cs
  | 0, _ => rfl
  | _ + 1, [] => rfl
  | fuel + 1, c :: cs => by
    rcases h : matchBounded (c :: cs) with _ | ⟨cap, rest⟩
    · simp only [rewriteBoundedF, canonicalBoundedF, h]
      rw [rewriteBoundedF_text vault fuel cs]
    · simp only [rewriteBoundedF, canonicalBoundedF, h]
      rw [rewriteBoundedF_text vault fuel rest]

theorem matchesBoundedF_shape : ∀ (fuel : Nat) (cs cap : List Char),
    cap ∈ matchesBoundedF fuel cs → ∃ body, cap = picturesLit ++ body
  | 0, _, _, h => by simp [matchesBoundedF] at h
  | _ + 1, [], _, h => by simp [matchesBoundedF] at h
  | fuel + 1, c :: cs, cap, h => by
    rcases hm : matchBounded (c :: cs) with _ | ⟨cap', rest⟩
    · rw [matchesBoundedF, hm] at h
      exact matchesBoundedF_shape fuel cs cap h
    · rw [matchesBoundedF, hm] at h
      rcases List.mem_cons.mp h with h1 | h1
      · subst h1
        obtain ⟨⟨body, _, hb⟩, _⟩ := matchBounded_spec _ _ _ hm
        exact ⟨body, hb⟩
      · exact matchesBoundedF_shape fuel rest cap h1

theorem matchesBoundedF_nil (vault : String) : ∀ (fuel : Nat) (cs : List Char),
    matchesBoundedF fuel cs = [] → rewriteBoundedF vault fuel cs = (cs, [])
  | 0, _, _ => rfl
  | _ + 1, [], _ => rfl
  | fuel + 1, c :: cs, h => by
    rcases hm : matchBounded (c :: cs) with _ | ⟨cap, rest⟩
    · rw [matchesBoundedF, hm] at h
      simp only [rewriteBoundedF, hm]
      rw [matchesBoundedF_nil vault fuel cs h]
    · rw [matchesBoundedF, hm] at h
      cases h

/-- String-level corollary of `matchesBoundedF_nil`. -/
theorem matchesBounded_nil (vault tex : String) (h : matchesBounded tex = []) :
    rewriteBounded vault tex = (tex, []) := by
  unfold rewriteBounded
  rw [matchesBoundedF_nil vault tex.data.length tex.data h]

/-! ## `splitFirstOcc` and `getSubstitution` lemmas -/

theorem splitFirstOcc_eq (pat : List Char) : ∀ (s b a : List Char),
    splitFirstOcc pat s = some (b, a) → s = b ++ pat ++ a := by
  intro s
  induction s with
  | nil =>
    intro b a h
    rcases hm : matchLit pat [] with _ | rest <;>
      simp only [splitFirstOcc, hm] at h
    · cases h
    · cases h
      simpa using matchLit_eq_append _ _ _ hm
  | cons c cs ih =>
    intro b a h
    rcases hm : matchLit pat (c :: cs) with _ | rest
    · simp only [splitFirstOcc, hm] at h
      rcases hs : splitFirstOcc pat cs with _ | ⟨b', a'⟩ <;> rw [hs] at h
      · cases h
      · simp only [Option.some.injEq, Prod.mk.injEq] at h
        obtain ⟨hb, ha⟩ := h
        subst hb
        subst ha
        have := ih b' a' hs
        simp [this]
    · simp only [splitFirstOcc, hm] at h
      cases h
      simpa using matchLit_eq_append _ _ _ hm

theorem splitFirstOcc_isSome (pat : List Char) : ∀ s : List Char,
    ContainsSub pat s → (splitFirstOcc pat s).isSome := by
  intro s
  induction s with
  | nil =>
    rintro ⟨b, a, hba⟩
    have h0 : (b ++ pat) ++ a = [] := by simpa [List.append_assoc] using hba.symm
    rcases List.append_eq_nil.mp h0 with ⟨h1, _⟩
    rcases List.append_eq_nil.mp h1 with ⟨_, hp⟩
    subst hp
    rfl
  | cons c cs ih =>
    rintro ⟨b, a, hba⟩
    rcases hm : matchLit pat (c :: cs) with _ | rest
    · cases b with
      | nil =>
        simp only [List.nil_append] at hba
        rw [hba, matchLit_self_append] at hm
        cases hm
      | cons c' b' =>
        simp only [List.cons_append, List.cons.injEq] at hba
        obtain ⟨_, hcs⟩ := hba
        have hsome := ih ⟨b', a, hcs⟩
        simp only [splitFirstOcc, hm]
        rcases hs : splitFirstOcc pat cs with _ | ⟨b'', a''⟩
        · rw [hs] at hsome; cases hsome
        · simp
    · simp [splitFirstOcc, hm]

theorem getSubstitution_dollarFree (matched before after : List Char) :
    ∀ repl : List Char, (∀ c ∈ repl, ¬ c = '$') →
    getSubstitution matched before after repl = repl
  | [], _ => rfl
  | c :: cs, h => by
    have hc : ¬ c = '$' := h c (List.mem_cons_self c cs)
    have ih := getSubstitution_dollarFree matched before after cs
      (fun d hd => h d (List.mem_cons_of_mem c hd))
    unfold getSubstitution
    rw [if_neg hc, ih]

/-- Content-based replacement: when the pattern occurs, the first
occurrence is replaced (with the replacement `$`-processed against the
surrounding context). -/
theorem jsReplaceFirst_contains (t pat repl : List Char) (h : ContainsSub pat t) :
    ∃ b a, t = b ++ pat ++ a ∧
      jsReplaceFirst t pat repl = b ++ getSubstitution pat b a repl ++ a := by
  have hs := splitFirstOcc_isSome pat t h
  rcases ho : splitFirstOcc pat t with _ | ⟨b, a⟩
  · rw [ho] at hs; cases hs
  · refine ⟨b, a, splitFirstOcc_eq pat t b a ho, ?_⟩
    unfold jsReplaceFirst
    rw [ho]

/-- When the pattern does not occur, the replacement is the identity. -/
theorem jsReplaceFirst_not_contains (t pat repl : List Char) (h : ¬ ContainsSub pat t) :
    jsReplaceFirst t pat repl = t := by
  rcases ho : splitFirstOcc pat t with _ | ⟨b, a⟩
  · unfold jsReplaceFirst
    rw [ho]
  · exact absurd ⟨b, a, splitFirstOcc_eq pat t b a ho⟩ h

/-! ## Pattern-B matcher lemmas -/

theorem scanTldrawBody_spec : ∀ (cs b rest : List Char),
    scanTldrawBody cs = some (b, rest) →
    cs = b ++ mdCloseLit ++ rest ∧ b ≠ [] ∧ ∀ x ∈ b, ¬ (x = '{' ∨ x = '}')
  | [], _, _, h => by simp [scanTldrawBody] at h
  | c :: cs, b, rest, h => by
    by_cases hc : c = '{' ∨ c = '}'
    · rw [scanTldrawBody, if_pos hc] at h
      cases h
    · rw [scanTldrawBody, if_neg hc] at h
      split at h
      · rename_i r hm
        simp only [Option.some.injEq, Prod.mk.injEq] at h
        obtain ⟨hb, hr⟩ := h
        subst hb
        subst hr
        have := matchLit_eq_append _ _ _ hm
        subst this
        refine ⟨by simp, by simp, ?_⟩
        intro x hx
        rcases List.mem_singleton.mp hx with rfl
        exact hc
      · split at h
        · rename_i b' rest' hs
          simp only [Option.some.injEq, Prod.mk.injEq] at h
          obtain ⟨hb, hr⟩ := h
          subst hb
          subst hr
          obtain ⟨heq, hne, hmem⟩ := scanTldrawBody_spec cs b' rest' hs
          refine ⟨by simp [heq], by simp, ?_⟩
          intro x hx
          rcases List.mem_cons.mp hx with rfl | hx'
          · exact hc
          · exact hmem x hx'
        · cases h

theorem mdCloseLit_split : mdCloseLit = mdLit ++ closeBrLit := by decide

/-- Structure of a successful Pattern-B match: the full match is
exactly the consumed text, equals `!{[}{[}` ++ capture ++ `{]}{]}`, and
the capture is `pictures/` ++ a non-empty brace-free body ++ `.md`. -/
theorem matchTldraw_spec (cs full cap rest : List Char)
    (h : matchTldraw cs = some (full, cap, rest)) :
    cs = full ++ rest ∧ full = bangLit ++ cap ++ closeBrLit ∧
    (∃ b, b ≠ [] ∧ cap = picturesLit ++ b ++ mdLit ∧ ∀ x ∈ b, ¬ (x = '{' ∨ x = '}')) ∧
    rest.length < cs.length := by
  unfold matchTldraw at h
  split at h
  · exact Option.noConfusion h
  rename_i cs1 h1
  split at h
  · exact Option.noConfusion h
  rename_i cs2 h2
  split at h
  · exact Option.noConfusion h
  rename_i b rest' h3
  simp only [Option.some.injEq, Prod.mk.injEq] at h
  obtain ⟨hfull, hcap, hrest⟩ := h
  subst hfull
  subst hcap
  subst hrest
  obtain ⟨heq, hne, hmem⟩ := scanTldrawBody_spec cs2 b rest' h3
  have e1 := matchLit_eq_append _ _ _ h1
  have e2 := matchLit_eq_append _ _ _ h2
  subst heq
  subst e2
  subst e1
  refine ⟨by simp [mdCloseLit_split], rfl, ⟨b, hne, rfl, hmem⟩, ?_⟩
  have hb : (7 : Nat) = bangLit.length := by decide
  simp [mdCloseLit_split]
  omega

theorem matchesTldrawF_sub : ∀ (fuel : Nat) (cs : List Char) (m : List Char × List Char),
    m ∈ matchesTldrawF fuel cs → ContainsSub m.1 cs
  | 0, _, _, h => by simp [matchesTldrawF] at h
  | _ + 1, [], _, h => by simp [matchesTldrawF] at h
  | fuel + 1, c :: cs, m, h => by
    rcases hm : matchTldraw (c :: cs) with _ | ⟨full, cap, rest⟩
    · rw [matchesTldrawF, hm] at h
      obtain ⟨b, a, hba⟩ := matchesTldrawF_sub fuel cs m h
      exact ⟨c :: b, a, by simp [hba]⟩
    · rw [matchesTldrawF, hm] at h
      obtain ⟨heq, -, -, -⟩ := matchTldraw_spec _ _ _ _ hm
      rcases List.mem_cons.mp h with rfl | h1
      · exact ⟨[], rest, by simpa using heq⟩
      · obtain ⟨b, a, hba⟩ := matchesTldrawF_sub fuel rest m h1
        refine ⟨full ++ b, a, ?_⟩
        rw [heq, hba]
        simp

theorem processTldraw_nil (fs : FS) (vault stageRoot : String) (t : List Char) :
    processTldraw fs vault stageRoot [] t = t := rfl

/-! ## C1 -/

/-- C1: the Pattern-A pass replaces each bounded-image wrapper with the
canonical full-line-width image-inclusion directive on the normalized
relative path, and records exactly one `AssetCopyTask` per match (in
match order) pairing the vault-joined absolute source path with the
normalized relative path; every recorded relative path is rooted under
`pictures/` and contains no back-slash. -/
theorem c1_pattern_a_rewrite (vault tex : String) :
    (rewriteBounded vault tex).2 = (matchesBounded tex).map
      (fun cap => { abs := pathJoin vault (String.mk cap)
                    rel := String.mk (normSlash cap) : AssetCopyTask })
    ∧ (rewriteBounded vault tex).1 = canonicalBounded tex
    ∧ ∀ t ∈ (rewriteBounded vault tex).2,
        LeadsWith picturesLit t.rel.data ∧ ¬ '\\' ∈ t.rel.data := by
  refine ⟨rewriteBoundedF_tasks vault tex.data.length tex.data, ?_, ?_⟩
  · unfold rewriteBounded canonicalBounded
    rw [rewriteBoundedF_text vault tex.data.length tex.data]
  · intro t ht
    have htasks := rewriteBoundedF_tasks vault tex.data.length tex.data
    unfold rewriteBounded at ht
    rw [htasks] at ht
    rcases List.mem_map.mp ht with ⟨cap, hcap, hmk⟩
    obtain ⟨body, hbody⟩ := matchesBoundedF_shape tex.data.length tex.data cap hcap
    subst hmk
    constructor
    · refine ⟨normSlash body, ?_⟩
      show normSlash cap = picturesLit ++ normSlash body
      rw [hbody]
      unfold normSlash
      rw [List.map_append]
      rw [show (picturesLit.map fun c => if c = '\\' then '/' else c) = picturesLit from
        normSlash_picturesLit]
    · exact normSlash_no_backslash cap

/-- C1 witness: a concrete one-match text; the recorded task's relative
path is rooted under `pictures/` and back-slash free. -/
theorem c1_witness :
    LeadsWith picturesLit
      ({ abs := "/v/pictures/a.png", rel := "pictures/a.png" : AssetCopyTask }).rel.data
    ∧ ¬ '\\' ∈ ({ abs := "/v/pictures/a.png", rel := "pictures/a.png" : AssetCopyTask }).rel.data :=
  (c1_pattern_a_rewrite ("/v")
      ("\\pandocbounded\x7b\\includegraphics\x7bpictures/a.png\x7d\x7d")).2.2
    { abs := "/v/pictures/a.png", rel := "pictures/a.png" } (by decide)

/-! ## C2 -/

/-- C2 (amended): during reference rewriting of a single LaTeX text
buffer, the list of all Pattern-B matches is collected eagerly from the
text *after* the Pattern-A substitution (not before it) and before any
Pattern-B replacement is applied; each Pattern-B match is then replaced
via exact substring match against its captured full text (first
occurrence, replacement `$`-processed by JS string-replace semantics),
not via index offsets. -/
theorem c2_pattern_b_collection :
    (∀ (fs : FS) (vault stageRoot tex : String),
      rewriteTexText fs vault stageRoot tex =
        String.mk (processTldraw fs vault stageRoot
          (matchesTldraw (rewriteBounded vault tex).1)
          ((rewriteBounded vault tex).1).data))
    ∧ (∀ t pat repl : List Char,
        (ContainsSub pat t → ∃ b a, t = b ++ pat ++ a ∧
          jsReplaceFirst t pat repl = b ++ getSubstitution pat b a repl ++ a)
        ∧ (¬ ContainsSub pat t → jsReplaceFirst t pat repl = t)) :=
  ⟨fun _ _ _ _ => rfl,
   fun t pat repl => ⟨jsReplaceFirst_contains t pat repl, jsReplaceFirst_not_contains t pat repl⟩⟩

/-- C2 counterexample: collecting the Pattern-B match list before the
Pattern-A substitution is *not* what the code does, and the difference
is observable: in this input the Pattern-A substitution *creates* a
Pattern-B match (the original text has none), and the code rewrites it,
while the spec-ordered variant (collect Pattern-B matches first, then
substitute Pattern A) leaves it alone. -/
theorem c2_counterexample :
    rewriteTexText fsEmpty ("/v") ("/s")
        ("\\pandocbounded\x7b\\includegraphics\x7bpictures/!\x7b[\x7d\x7d\x7b[\x7dpictures/x.md\x7b]\x7d\x7b]\x7d")
      ≠ specOrderedRewrite fsEmpty ("/v") ("/s")
        ("\\pandocbounded\x7b\\includegraphics\x7bpictures/!\x7b[\x7d\x7d\x7b[\x7dpictures/x.md\x7b]\x7d\x7b]\x7d")
    ∧ matchesTldraw
        ("\\pandocbounded\x7b\\includegraphics\x7bpictures/!\x7b[\x7d\x7d\x7b[\x7dpictures/x.md\x7b]\x7d\x7b]\x7d")
        = []
    ∧ matchesTldraw (rewriteBounded ("/v")
        ("\\pandocbounded\x7b\\includegraphics\x7bpictures/!\x7b[\x7d\x7d\x7b[\x7dpictures/x.md\x7b]\x7d\x7b]\x7d")).1
        ≠ [] := by
  refine ⟨?_, ?_, ?_⟩ <;> decide

/-- C2 witness: a concrete instance of the replacement part of
`c2_pattern_b_collection`, hypotheses discharged at `t = "abc"`,
`pat = "b"`. -/
theorem c2_witness :
    ContainsSub (("b").data) (("abc").data) ∧
    ∃ b a, ("abc").data = b ++ ("b").data ++ a ∧
      jsReplaceFirst (("abc").data) (("b").data) (("X").data)
        = b ++ getSubstitution (("b").data) b a (("X").data) ++ a :=
  ⟨⟨("a").data, ("c").data, by decide⟩,
   (c2_pattern_b_collection.2 (("abc").data) (("b").data) (("X").data)).1
     ⟨("a").data, ("c").data, by decide⟩⟩

/-! ## C3 -/

/-- C3 (amended): applying the reference-rewrite step twice yields the
same text as applying it once, provided no Pattern-B match *and no
Pattern-A match* remains after the first pass; in particular, text
containing neither pattern is returned unchanged.  (The extra Pattern-A
condition is forced by `c3_counterexample`: a nested wrapper can leave a
fresh Pattern-A match after one pass.) -/
theorem c3_idempotent_amended (fs : FS) (vault stageRoot : String) (tex : String) :
    (matchesBounded (rewriteTexText fs vault stageRoot tex) = [] →
     matchesTldraw (rewriteTexText fs vault stageRoot tex) = [] →
     rewriteTexText fs vault stageRoot (rewriteTexText fs vault stageRoot tex)
       = rewriteTexText fs vault stageRoot tex)
    ∧ (matchesBounded tex = [] → matchesTldraw tex = [] →
       rewriteTexText fs vault stageRoot tex = tex) := by
  have key : ∀ t : String, matchesBounded t = [] → matchesTldraw t = [] →
      rewriteTexText fs vault stageRoot t = t := by
    intro t h1 h2
    unfold rewriteTexText
    rw [matchesBounded_nil vault t h1]
    show String.mk (processTldraw fs vault stageRoot (matchesTldraw t) t.data) = t
    rw [h2]
    rfl
  exact ⟨fun h1 h2 => key _ h1 h2, key tex⟩

/-- C3 counterexample: a nested bounded-image wrapper.  After one
rewrite pass no Pattern-B match remains (the claim's stated
precondition holds), yet a second pass changes the text again, because
the first pass exposed a fresh Pattern-A wrapper. -/
theorem c3_counterexample :
    matchesTldraw (rewriteTexText fsEmpty ("/v") ("/s")
        ("\\pandocbounded\x7b\\pandocbounded\x7b\\includegraphics\x7bpictures/x\x7d\x7d\x7d")) = []
    ∧ rewriteTexText fsEmpty ("/v") ("/s")
        (rewriteTexText fsEmpty ("/v") ("/s")
          ("\\pandocbounded\x7b\\pandocbounded\x7b\\includegraphics\x7bpictures/x\x7d\x7d\x7d"))
      ≠ rewriteTexText fsEmpty ("/v") ("/s")
          ("\\pandocbounded\x7b\\pandocbounded\x7b\\includegraphics\x7bpictures/x\x7d\x7d\x7d") := by
  constructor <;> decide

/-- C3 witness: on text containing neither pattern the rewrite step is
the identity (hypotheses of `c3_idempotent_amended` discharged at a
concrete input). -/
theorem c3_witness :
    matchesBounded ("plain text") = [] ∧ matchesTldraw ("plain text") = [] ∧
    rewriteTexText fsEmpty ("/v") ("/s") ("plain text") = ("plain text") :=
  ⟨by decide, by decide,
   (c3_idempotent_amended fsEmpty ("/v") ("/s") ("plain text")).2 (by decide) (by decide)⟩

/-! ## C4 -/

theorem head?_append_left (l m : List Char) (h : l ≠ []) : (l ++ m).head? = l.head? := by
  cases l with
  | nil => exact absurd rfl h
  | cons c cs => rfl

/-- A warning comment is never an image-inclusion directive (they do not
even agree on the first character). -/
theorem commentFor_ne_includeDirective (relMd : String) (p : List Char) :
    commentFor relMd ≠ includeDirective p := by
  intro h
  have h0 := congrArg List.head? h
  rw [commentFor, includeDirective] at h0
  rw [head?_append_left commentOpenLit _ (by decide)] at h0
  rw [head?_append_left (directiveOpen ++ p) _
        (by intro hn; exact absurd (List.append_eq_nil.mp hn).1 (by decide))] at h0
  rw [head?_append_left directiveOpen p (by decide)] at h0
  rw [show commentOpenLit.head? = some '%' from by decide,
      show directiveOpen.head? = some '\\' from by decide] at h0
  exact absurd h0 (by decide)

/-- C4: the embedded-drawing exporter never throws: it returns the null
failure result exactly when the target document cannot be read or lacks
the fenced tldraw payload block (every fallible step is modelled by
`Option`); for a Pattern-B match whose export fails, the replacement
substituted for the match is the warning comment naming the target's
relative path — never an image-inclusion directive — and (for a text
whose Pattern-B match list is that match) the final rewritten text
contains the comment. -/
theorem c4_export_failure_handling :
    (∀ (fs : FS) (stageRoot mdAbs : String),
      exportTldrawMdToPng fs stageRoot mdAbs = none ↔
        (fs mdAbs = none ∨ ∃ src, fs mdAbs = some src ∧ fenceTldraw src = none))
    ∧ (∀ (fs : FS) (vault stageRoot : String) (cap : List Char),
        exportTldrawMdToPng fs stageRoot (pathJoin vault (jsTrim (String.mk cap))) = none →
        tldrawReplacement fs vault stageRoot cap = commentFor (jsTrim (String.mk cap))
        ∧ ∀ p, tldrawReplacement fs vault stageRoot cap ≠ includeDirective p)
    ∧ (∀ (fs : FS) (vault stageRoot tex : String) (full cap : List Char),
        matchesTldraw (rewriteBounded vault tex).1 = [(full, cap)] →
        tldrawReplacement fs vault stageRoot cap = commentFor (jsTrim (String.mk cap)) →
        ¬ '$' ∈ (jsTrim (String.mk cap)).data →
        ContainsSub (commentFor (jsTrim (String.mk cap)))
          (rewriteTexText fs vault stageRoot tex).data) := by
  refine ⟨?_, ?_, ?_⟩
  · intro fs stageRoot mdAbs
    constructor
    · intro h
      rcases hfs : fs mdAbs with _ | src
      · exact Or.inl rfl
      · rcases hf : fenceTldraw src with _ | payload
        · exact Or.inr ⟨src, rfl, hf⟩
        · simp [exportTldrawMdToPng, hfs, hf] at h
    · rintro (hfs | ⟨src, hfs, hf⟩)
      · simp [exportTldrawMdToPng, hfs]
      · simp [exportTldrawMdToPng, hfs, hf]
  · refine fun fs vault stageRoot cap h => ⟨?_, ?_⟩
    · simp only [tldrawReplacement, h]
    · intro p
      simp only [tldrawReplacement, h]
      exact commentFor_ne_includeDirective _ p
  · intro fs vault stageRoot tex full cap hms hrepl hdollar
    have hmem : (full, cap) ∈ matchesTldraw (rewriteBounded vault tex).1 := by
      rw [hms]; exact List.mem_cons_self _ _
    have hct : ContainsSub full ((rewriteBounded vault tex).1).data :=
      matchesTldrawF_sub _ _ _ hmem
    obtain ⟨b, a, hba, hrw⟩ :=
      jsReplaceFirst_contains _ full (tldrawReplacement fs vault stageRoot cap) hct
    have e : (rewriteTexText fs vault stageRoot tex).data
        = processTldraw fs vault stageRoot (matchesTldraw (rewriteBounded vault tex).1)
            ((rewriteBounded vault tex).1).data := rfl
    rw [e, hms]
    show ContainsSub _ (jsReplaceFirst ((rewriteBounded vault tex).1).data full
      (tldrawReplacement fs vault stageRoot cap))
    rw [hrw, hrepl]
    have hfree : ∀ c ∈ commentFor (jsTrim (String.mk cap)), ¬ c = '$' := by
      intro c hc
      rcases List.mem_append.mp hc with h | h
      · have hno : ∀ x ∈ commentOpenLit, ¬ x = '$' := by decide
        exact hno c h
      · intro he; subst he; exact hdollar h
    rw [getSubstitution_dollarFree _ _ _ _ hfree]
    exact ⟨b, a, rfl⟩

/-- C4 witness: a concrete failed export (unreadable file system) and a
concrete single-match text whose final rewrite contains the warning
comment. -/
theorem c4_witness :
    exportTldrawMdToPng fsEmpty ("/s") ("/v/pictures/x.md") = none
    ∧ ContainsSub (commentFor (jsTrim (String.mk (("pictures/x.md").data))))
        (rewriteTexText fsEmpty ("/v") ("/s")
          ("A !\x7b[\x7d\x7b[\x7dpictures/x.md\x7b]\x7d\x7b]\x7d B")).data :=
  ⟨(c4_export_failure_handling.1 fsEmpty ("/s") ("/v/pictures/x.md")).mpr (Or.inl rfl),
   c4_export_failure_handling.2.2 fsEmpty ("/v") ("/s")
     ("A !\x7b[\x7d\x7b[\x7dpictures/x.md\x7b]\x7d\x7b]\x7d B")
     (("!\x7b[\x7d\x7b[\x7dpictures/x.md\x7b]\x7d\x7b]\x7d").data)
     (("pictures/x.md").data)
     (by decide) (by decide) (by decide)⟩

/-! ## C5 -/

/-- Paths not written by the copy loop keep their prior content. -/
theorem copyAssets_preserve (stageRoot : String) : ∀ (fs : FS) (ts : List AssetCopyTask)
    (k : String), (∀ u ∈ ts, ¬ k = pathJoin stageRoot u.rel) →
    (copyAssets stageRoot fs ts).1 k = fs k
  | _, [], _, _ => rfl
  | fs, t :: ts, k, h => by
    rcases hfs : fs t.abs with _ | c
    · simp only [copyAssets, hfs]
      exact copyAssets_preserve stageRoot fs ts k (fun u hu => h u (List.mem_cons_of_mem t hu))
    · simp only [copyAssets, hfs]
      rw [copyAssets_preserve stageRoot _ ts k (fun u hu => h u (List.mem_cons_of_mem t hu))]
      unfold fsSet
      rw [if_neg (h t (List.mem_cons_self t ts))]

/-- The copy loop warns exactly about the tasks whose source is missing
(in task order), provided sources are disjoint from stage destinations
(which holds in the program: sources live under the vault's `pictures/`,
destinations under the fresh stage root). -/
theorem copyAssets_warnings (stageRoot : String) : ∀ (fs : FS) (ts : List AssetCopyTask),
    (∀ t ∈ ts, ∀ u ∈ ts, ¬ t.abs = pathJoin stageRoot u.rel) →
    (copyAssets stageRoot fs ts).2
      = (ts.filter (fun t => (fs t.abs).isNone)).map (fun t => t.abs)
  | _, [], _ => rfl
  | fs, t :: ts, h => by
    have htail : ∀ t' ∈ ts, ∀ u ∈ ts, ¬ t'.abs = pathJoin stageRoot u.rel :=
      fun t' ht' u hu => h t' (List.mem_cons_of_mem t ht') u (List.mem_cons_of_mem t hu)
    rcases hfs : fs t.abs with _ | c
    · simp only [copyAssets, hfs]
      rw [copyAssets_warnings stageRoot fs ts htail]
      rw [List.filter_cons_of_pos (by simp [hfs])]
      simp
    · simp only [copyAssets, hfs]
      rw [copyAssets_warnings stageRoot (fsSet fs (pathJoin stageRoot t.rel) c) ts htail]
      have hpt : ∀ u ∈ ts,
          ((fsSet fs (pathJoin stageRoot t.rel) c) u.abs).isNone = (fs u.abs).isNone := by
        intro u hu
        unfold fsSet
        rw [if_neg (h u (List.mem_cons_of_mem t hu) t (List.mem_cons_self t ts))]
      rw [List.filter_congr hpt]
      rw [List.filter_cons_of_neg (by simp [hfs])]

/-- Every task whose source exists is copied: after the loop, its stage
destination holds the source content (destinations assumed pairwise
distinct, as they are for distinct recorded relative paths). -/
theorem copyAssets_written (stageRoot : String) : ∀ (fs : FS) (ts : List AssetCopyTask),
    (∀ t ∈ ts, ∀ u ∈ ts, ¬ t.abs = pathJoin stageRoot u.rel) →
    ((ts.map (fun t => pathJoin stageRoot t.rel)).Nodup) →
    ∀ t ∈ ts, ∀ c, fs t.abs = some c →
      (copyAssets stageRoot fs ts).1 (pathJoin stageRoot t.rel) = some c
  | _, [], _, _ => fun t ht => absurd ht (List.not_mem_nil t)
  | fs, t0 :: ts, h1, h2 => by
    intro t ht c hc
    have h1tail : ∀ t' ∈ ts, ∀ u ∈ ts, ¬ t'.abs = pathJoin stageRoot u.rel :=
      fun t' ht' u hu => h1 t' (List.mem_cons_of_mem t0 ht') u (List.mem_cons_of_mem t0 hu)
    have h2' := h2
    rw [List.map_cons, List.nodup_cons] at h2'
    rcases List.mem_cons.mp ht with rfl | hts
    · simp only [copyAssets, hc]
      rw [copyAssets_preserve stageRoot _ ts (pathJoin stageRoot t.rel) ?_]
      · unfold fsSet
        rw [if_pos rfl]
      · intro u hu he
        exact h2'.1 (he ▸ List.mem_map_of_mem _ hu)
    · rcases hfs0 : fs t0.abs with _ | c0
      · simp only [copyAssets, hfs0]
        exact copyAssets_written stageRoot fs ts h1tail h2'.2 t hts c hc
      · simp only [copyAssets, hfs0]
        refine copyAssets_written stageRoot _ ts h1tail h2'.2 t hts c ?_
        unfold fsSet
        rw [if_neg (h1 t (List.mem_cons_of_mem t0 hts) t0 (List.mem_cons_self t0 ts))]
        exact hc

/-- C5: every drained `AssetCopyTask`'s source existence is checked
before copying; a task with a missing source is skipped and produces
exactly one warning (in task order) without aborting the loop; every
task whose source exists is still copied to its stage destination, and
the staged LaTeX is still written afterwards.  (The disjointness
hypotheses — sources are not stage destinations, destinations are
pairwise distinct, and the staged LaTeX path is not an asset
destination — hold for the program's tasks, whose sources live under
the vault's `pictures/` and whose destinations live under the fresh
stage directory.) -/
theorem c5_stage_copy (stageRoot texPath : String) (fs : FS) (tasks : List AssetCopyTask)
    (tex : String)
    (h1 : ∀ t ∈ tasks, ∀ u ∈ tasks, ¬ t.abs = pathJoin stageRoot u.rel)
    (h2 : (tasks.map (fun t => pathJoin stageRoot t.rel)).Nodup)
    (h3 : ∀ t ∈ tasks, ¬ texPath = pathJoin stageRoot t.rel) :
    (buildStage stageRoot texPath fs tasks tex).2
        = (tasks.filter (fun t => (fs t.abs).isNone)).map (fun t => t.abs)
    ∧ (∀ t ∈ tasks, ∀ c, fs t.abs = some c →
        (buildStage stageRoot texPath fs tasks tex).1 (pathJoin stageRoot t.rel) = some c)
    ∧ (buildStage stageRoot texPath fs tasks tex).1 texPath = some tex := by
  refine ⟨?_, ?_, ?_⟩
  · exact copyAssets_warnings stageRoot fs tasks h1
  · intro t ht c hc
    show fsSet (copyAssets stageRoot fs tasks).1 texPath tex (pathJoin stageRoot t.rel) = some c
    unfold fsSet
    rw [if_neg (fun he => h3 t ht he.symm)]
    exact copyAssets_written stageRoot fs tasks h1 h2 t ht c hc
  · show fsSet (copyAssets stageRoot fs tasks).1 texPath tex texPath = some tex
    unfold fsSet
    rw [if_pos rfl]

/-- C5 witness: two tasks, one with an existing source and one missing;
the missing one is warned about and skipped, the other is copied, and
the staged LaTeX is written. -/
theorem c5_witness :
    (buildStage ("/v/.md2overleaf/d/__stage__") ("/v/.md2overleaf/d/__stage__/d.tex")
        (fsSet fsEmpty ("/v/pictures/a.png") ("A"))
        [{ abs := "/v/pictures/a.png", rel := "pictures/a.png" },
         { abs := "/v/pictures/b.png", rel := "pictures/b.png" }] ("T")).2
      = ["/v/pictures/b.png"]
    ∧ (buildStage ("/v/.md2overleaf/d/__stage__") ("/v/.md2overleaf/d/__stage__/d.tex")
        (fsSet fsEmpty ("/v/pictures/a.png") ("A"))
        [{ abs := "/v/pictures/a.png", rel := "pictures/a.png" },
         { abs := "/v/pictures/b.png", rel := "pictures/b.png" }] ("T")).1
        (pathJoin ("/v/.md2overleaf/d/__stage__") ("pictures/a.png")) = some ("A")
    ∧ (buildStage ("/v/.md2overleaf/d/__stage__") ("/v/.md2overleaf/d/__stage__/d.tex")
        (fsSet fsEmpty ("/v/pictures/a.png") ("A"))
        [{ abs := "/v/pictures/a.png", rel := "pictures/a.png" },
         { abs := "/v/pictures/b.png", rel := "pictures/b.png" }] ("T")).1
        ("/v/.md2overleaf/d/__stage__/d.tex") = some ("T") := by
  obtain ⟨w1, w2, w3⟩ := c5_stage_copy ("/v/.md2overleaf/d/__stage__")
    ("/v/.md2overleaf/d/__stage__/d.tex")
    (fsSet fsEmpty ("/v/pictures/a.png") ("A"))
    [{ abs := "/v/pictures/a.png", rel := "pictures/a.png" },
     { abs := "/v/pictures/b.png", rel := "pictures/b.png" }] ("T")
    (by decide) (by decide) (by decide)
  refine ⟨?_, ?_, w3⟩
  · rw [w1]
    decide
  · exact w2 { abs := "/v/pictures/a.png", rel := "pictures/a.png" } (by decide) ("A") (by decide)

/-! ## C6 -/

/-- C6 (amended): the external converter is invoked with the fixed
command `./mdtex.sh -v "<absolute-source-document-path>"` — the
configured converter script (`scriptPath`, expanded at line 57) is
computed but never used by the invocation — and the working directory
is the vault root. -/
theorem c6_converter_invocation (s s' : Md2OverleafSettings) (vaultPath filePath : String) :
    converterInvocation s vaultPath filePath
      = ("./mdtex.sh -v \"" ++ filePath ++ "\"", vaultPath)
    ∧ converterInvocation s vaultPath filePath = converterInvocation s' vaultPath filePath :=
  ⟨rfl, rfl⟩

/-- C6 counterexample: with a configured converter script
`/opt/conv.sh`, the claimed command (expanded script path, `-v`, quoted
source path) differs from the command the code actually runs. -/
theorem c6_counterexample :
    (converterInvocation
        { scriptPath := "/opt/conv.sh", uploadHost := "https://transfer.sh", autoOpen := true }
        ("/v") ("/v/Notes.md")).1
      ≠ claimConverterCmd
        { scriptPath := "/opt/conv.sh", uploadHost := "https://transfer.sh", autoOpen := true }
        ("/v") ("/v/Notes.md") := by
  decide

/-! ## C7 -/

theorem matchUrlAt_spec (cs m : List Char) (h : matchUrlAt cs = some m) :
    (LeadsWith httpDomainLit m ∨ LeadsWith httpsDomainLit m) ∧ ∀ c ∈ m, ¬ isSpaceJS c := by
  unfold matchUrlAt at h
  split at h
  · rename_i cs1 h1
    split at h
    · exact Option.noConfusion h
    · rename_i hne
      simp only [Option.some.injEq] at h
      subst h
      refine ⟨Or.inr ⟨_, rfl⟩, ?_⟩
      intro c hc
      rcases List.mem_append.mp hc with hd | ht
      · have hall : ∀ x ∈ httpsDomainLit, ¬ isSpaceJS x := by decide
        exact hall c hd
      · have := List.mem_takeWhile_imp ht
        simpa using this
  · split at h
    · rename_i cs1 h2
      split at h
      · exact Option.noConfusion h
      · rename_i hne
        simp only [Option.some.injEq] at h
        subst h
        refine ⟨Or.inl ⟨_, rfl⟩, ?_⟩
        intro c hc
        rcases List.mem_append.mp hc with hd | ht
        · have hall : ∀ x ∈ httpDomainLit, ¬ isSpaceJS x := by decide
          exact hall c hd
        · have := List.mem_takeWhile_imp ht
          simpa using this
    · exact Option.noConfusion h

/-- A successful scan result is the leftmost match: it matches at some
position and every earlier position has no match. -/
theorem extractUrlF_some : ∀ (fuel : Nat) (cs u : List Char), extractUrlF fuel cs = some u →
    ∃ n, matchUrlAt (cs.drop n) = some u ∧ ∀ m < n, matchUrlAt (cs.drop m) = none
  | 0, _, _, h => by simp [extractUrlF] at h
  | _ + 1, [], _, h => by simp [extractUrlF] at h
  | fuel + 1, c :: cs, u, h => by
    rcases hm : matchUrlAt (c :: cs) with _ | m
    · rw [extractUrlF, hm] at h
      obtain ⟨n, hn, hlt⟩ := extractUrlF_some fuel cs u h
      refine ⟨n + 1, by simpa using hn, ?_⟩
      intro k hk
      cases k with
      | zero => simpa using hm
      | succ k' =>
        have hk' : k' < n := by omega
        simpa using hlt k' hk'
    · rw [extractUrlF, hm] at h
      cases h
      exact ⟨0, by simpa using hm, fun k hk => absurd hk (Nat.not_lt_zero k)⟩

/-- When the scan reports no match (with enough fuel), no position
matches. -/
theorem extractUrlF_none : ∀ (fuel : Nat) (cs : List Char), cs.length ≤ fuel →
    extractUrlF fuel cs = none → ∀ n, matchUrlAt (cs.drop n) = none
  | 0, cs, hle, _ => by
    have hnil : cs = [] := List.eq_nil_of_length_eq_zero (Nat.le_zero.mp hle)
    subst hnil
    intro n
    rw [List.drop_nil]
    rfl
  | _ + 1, [], _, _ => by
    intro n
    rw [List.drop_nil]
    rfl
  | fuel + 1, c :: cs, hle, h => by
    rcases hm : matchUrlAt (c :: cs) with _ | m
    · rw [extractUrlF, hm] at h
      intro n
      cases n with
      | zero => simpa using hm
      | succ k =>
        have hcs : cs.length ≤ fuel := by
          simp only [List.length_cons] at hle
          omega
        simpa using extractUrlF_none fuel cs hcs h k
    · rw [extractUrlF, hm] at h
      cases h

/-- C7: after the upload subprocess exits with status zero, if stdout
contains a bashupload URL then the leftmost matching substring is
extracted (matching at some position while all earlier positions have
no match) and the produced deep link is exactly the remote editor base
concatenated with `?snip_uri=<url>&engine=xelatex&name=<base>` with no
URL-encoding; if no substring matches, the distinct no-URL failure is
surfaced and no deep link is produced. -/
theorem c7_upload_url_extraction (s : Md2OverleafSettings) (base stdout : String) :
    (∀ u : List Char, extractBashuploadUrl stdout = some u →
      uploadCallback s base true stdout
        = (if s.autoOpen then UploadOutcome.linkOpened (overleafUrl (String.mk u) base)
           else UploadOutcome.linkShown (overleafUrl (String.mk u) base))
      ∧ overleafUrl (String.mk u) base
        = "https://www.overleaf.com/docs?snip_uri=" ++ String.mk u
            ++ "&engine=xelatex&name=" ++ base
      ∧ ∃ n, matchUrlAt (stdout.data.drop n) = some u
          ∧ ∀ m < n, matchUrlAt (stdout.data.drop m) = none)
    ∧ (extractBashuploadUrl stdout = none →
        uploadCallback s base true stdout = UploadOutcome.noUrlFound) := by
  constructor
  · intro u hu
    have hns : ∀ c ∈ u, ¬ isSpaceJS c := by
      obtain ⟨n, hn, -⟩ := extractUrlF_some _ _ u hu
      exact (matchUrlAt_spec _ u hn).2
    have htrim : jsTrim (String.mk u) = String.mk u := by
      unfold jsTrim
      rw [show (String.mk u).data = u from rfl, jsTrimL_eq_self u hns]
    refine ⟨?_, rfl, extractUrlF_some _ _ u hu⟩
    simp [uploadCallback, hu, htrim]
  · intro hn
    simp [uploadCallback, hn]

/-- C7 witness: a concrete stdout containing a URL (auto-open on), and
a concrete stdout with no URL. -/
theorem c7_witness :
    uploadCallback DEFAULT_SETTINGS ("Notes") true ("ok https://bashupload.app/f.zip (1MB)")
      = UploadOutcome.linkOpened
          (overleafUrl (String.mk (("https://bashupload.app/f.zip").data)) ("Notes"))
    ∧ uploadCallback DEFAULT_SETTINGS ("Notes") true ("no url here")
      = UploadOutcome.noUrlFound := by
  constructor
  · have h := (c7_upload_url_extraction DEFAULT_SETTINGS ("Notes")
      ("ok https://bashupload.app/f.zip (1MB)")).1
      (("https://bashupload.app/f.zip").data) (by decide)
    rw [h.1]
    rfl
  · exact (c7_upload_url_extraction DEFAULT_SETTINGS ("Notes") ("no url here")).2 (by decide)

/-! ## C8 -/

theorem mem_dropWhile (p : Char → Bool) : ∀ (l : List Char) (c : Char),
    c ∈ l.dropWhile p → c ∈ l
  | [], _, h => h
  | x :: xs, c, h => by
    by_cases hx : p x
    · rw [List.dropWhile_cons_of_pos hx] at h
      exact List.mem_cons_of_mem x (mem_dropWhile p xs c h)
    · rw [List.dropWhile_cons_of_neg hx] at h
      exact h

theorem collapseRunsF_mem (p : Char → Bool) : ∀ (fuel : Nat) (l : List Char),
    l.length ≤ fuel → ∀ c ∈ collapseRunsF p fuel l, (c ∈ l ∧ p c = false) ∨ c = ' '
  | 0, l, hle => by
    have hnil : l = [] := List.eq_nil_of_length_eq_zero (Nat.le_zero.mp hle)
    subst hnil
    intro c hc
    simp [collapseRunsF] at hc
  | _ + 1, [], _ => by
    intro c hc
    simp [collapseRunsF] at hc
  | fuel + 1, x :: xs, hle => by
    intro c hc
    have hxs : xs.length ≤ fuel := by
      simp only [List.length_cons] at hle
      omega
    by_cases hx : p x
    · simp only [collapseRunsF, if_pos hx] at hc
      rcases List.mem_cons.mp hc with rfl | hc'
      · exact Or.inr rfl
      · have hsub : (xs.dropWhile p).length ≤ fuel :=
          le_trans (dropWhile_length_le p xs) hxs
        rcases collapseRunsF_mem p fuel (xs.dropWhile p) hsub c hc' with ⟨hm, hp⟩ | hsp
        · exact Or.inl ⟨List.mem_cons_of_mem x (mem_dropWhile p xs c hm), hp⟩
        · exact Or.inr hsp
    · simp only [collapseRunsF, if_neg hx] at hc
      rcases List.mem_cons.mp hc with rfl | hc'
      · exact Or.inl ⟨List.mem_cons_self c xs, by simpa using hx⟩
      · rcases collapseRunsF_mem p fuel xs hxs c hc' with ⟨hm, hp⟩ | hsp
        · exact Or.inl ⟨List.mem_cons_of_mem x hm, hp⟩
        · exact Or.inr hsp

theorem jsTrimL_mem (l : List Char) (c : Char) (h : c ∈ jsTrimL l) : c ∈ l := by
  unfold jsTrimL at h
  have h1 := List.mem_reverse.mp h
  have h2 := mem_dropWhile isSpaceJS _ c h1
  have h3 := List.mem_reverse.mp h2
  exact mem_dropWhile isSpaceJS l c h3

/-- C8: title derivation strips the extension, replaces each run of
hyphens/underscores with a single space, collapses whitespace and trims:
`"My_Great-Paper"` derives `"My Great Paper"`, `"a--b__c"` derives
`"a b c"`, and in general the derived title contains no hyphen or
underscore. -/
theorem c8_title_derivation :
    niceTitle ("My_Great-Paper") = ("My Great Paper")
    ∧ niceTitle ("a--b__c") = ("a b c")
    ∧ ∀ b : String, ¬ '-' ∈ (niceTitle b).data ∧ ¬ '_' ∈ (niceTitle b).data := by
  refine ⟨by decide, by decide, ?_⟩
  intro b
  have key : ∀ c, c ∈ (niceTitle b).data → ¬ (c = '-' ∨ c = '_') := by
    intro c hc
    have hc1 : c ∈ collapseRunsF isSpaceJS
        (collapseRunsF isSepChar (stripTexExt b).data.length (stripTexExt b).data).length
        (collapseRunsF isSepChar (stripTexExt b).data.length (stripTexExt b).data) :=
      jsTrimL_mem _ c hc
    rcases collapseRunsF_mem isSpaceJS _ _ (Nat.le_refl _) c hc1 with ⟨hm2, _⟩ | rfl
    · rcases collapseRunsF_mem isSepChar _ _ (Nat.le_refl _) c hm2 with ⟨_, hp⟩ | rfl
      · rintro (rfl | rfl) <;> simp [isSepChar] at hp
      · rintro (h | h) <;> cases h
    · rintro (h | h) <;> cases h
  exact ⟨fun h => key '-' h (Or.inl rfl), fun h => key '_' h (Or.inr rfl)⟩

/-- C8 witness: a concrete base name whose derived title is separator
free. -/
theorem c8_witness :
    ¬ '-' ∈ (niceTitle ("x-y_z")).data ∧ ¬ '_' ∈ (niceTitle ("x-y_z")).data :=
  c8_title_derivation.2.2 ("x-y_z")

/-! ## C9 -/

/-- C9 (amended): for every template and root path whose root path
contains no `$`, the resolver returns the template with the first
occurrence of the placeholder replaced by the root path string; a
template not containing the placeholder is returned unchanged (for any
root path).  (The `$`-restriction is forced by `c9_counterexample`: JS
string replacement processes `$`-patterns in the replacement.) -/
theorem c9_expand (p v : String) :
    (¬ '$' ∈ v.data → expand p v = substToken p v)
    ∧ ((∀ b a : List Char, p.data ≠ b ++ vaultTokenLit ++ a) → expand p v = p) := by
  constructor
  · intro hd
    rcases ho : splitFirstOcc vaultTokenLit p.data with _ | ⟨b, a⟩
    · unfold expand substToken jsReplaceFirst
      rw [ho]
    · unfold expand substToken jsReplaceFirst
      rw [ho]
      show String.mk (b ++ getSubstitution vaultTokenLit b a v.data ++ a)
        = String.mk (b ++ v.data ++ a)
      rw [getSubstitution_dollarFree _ _ _ v.data (fun c hc he => hd (he ▸ hc))]
  · intro hno
    have hnc : ¬ ContainsSub vaultTokenLit p.data := by
      rintro ⟨b, a, hba⟩
      exact hno b a hba
    unfold expand
    rw [jsReplaceFirst_not_contains _ _ _ hnc]

/-- C9 counterexample: the root path `"$$"` is not substituted
literally — JS replacement-pattern processing collapses it to `"$"`,
so the result differs from the template with the placeholder replaced
by the root path string. -/
theorem c9_counterexample :
    expand ("$\x7bvault\x7d/mdtex.sh") ("$$")
      ≠ substToken ("$\x7bvault\x7d/mdtex.sh") ("$$") := by
  decide

/-- C9 witness: a `$`-free root path is substituted literally, and a
template without the placeholder is returned unchanged. -/
theorem c9_witness :
    (¬ '$' ∈ ("/home/me/vault").data
      ∧ expand ("$\x7bvault\x7d/mdtex.sh") ("/home/me/vault")
          = substToken ("$\x7bvault\x7d/mdtex.sh") ("/home/me/vault"))
    ∧ ((∀ b a : List Char, ("nope").data ≠ b ++ vaultTokenLit ++ a)
      ∧ expand ("nope") ("/v") = ("nope")) := by
  have hlen : ∀ b a : List Char, ("nope").data ≠ b ++ vaultTokenLit ++ a := by
    intro b a hba
    have hl := congrArg List.length hba
    rw [List.length_append, List.length_append] at hl
    have hv : vaultTokenLit.length = 8 := by decide
    have h4 : (("nope").data).length = 4 := by decide
    omega
  exact ⟨⟨by decide, (c9_expand _ _).1 (by decide)⟩, ⟨hlen, (c9_expand _ _).2 hlen⟩⟩

/-! ## C10 -/

/-- C10 (amended): the export pipeline's observable behaviour is
independent of the configured `uploadHost`: any two settings records
agreeing on `scriptPath` and `autoOpen` produce identical observables;
the upload command is `cd "<outDir>" && curl bashupload.app -T
"<base>.zip"` (a fixed `curl` to bashupload.app prefixed by a `cd` into
the job output directory, not the bare `curl` string), and URL
extraction only ever produces bashupload.app URLs. -/
theorem c10_upload_host_independence :
    (∀ (s s' : Md2OverleafSettings) (vault filePath : String) (fs : FS) (tex : String)
        (ok : Bool) (out : String),
      s.scriptPath = s'.scriptPath → s.autoOpen = s'.autoOpen →
      exportPipeline s vault filePath fs tex ok out
        = exportPipeline s' vault filePath fs tex ok out)
    ∧ (∀ outDir base : String, uploadCmd outDir base
        = "cd \"" ++ outDir ++ "\" && curl bashupload.app -T \"" ++ base ++ ".zip\"")
    ∧ (∀ (out : String) (u : List Char), extractBashuploadUrl out = some u →
        LeadsWith httpDomainLit u ∨ LeadsWith httpsDomainLit u) := by
  refine ⟨?_, fun _ _ => rfl, ?_⟩
  · rintro ⟨sp, uh, ao⟩ ⟨sp', uh', ao'⟩ vault filePath fs tex ok out h1 h2
    simp only at h1 h2
    subst h1
    subst h2
    rfl
  · intro out u hu
    obtain ⟨n, hn, -⟩ := extractUrlF_some _ _ u hu
    exact (matchUrlAt_spec _ u hn).1

/-- C10 counterexample: the upload command is not the bare fixed string
`curl bashupload.app -T "<base>.zip"`; it is prefixed by a `cd` into
the job output directory. -/
theorem c10_counterexample :
    uploadCmd ("/v/.md2overleaf/doc") ("doc") ≠ claimUploadCmd ("doc") := by
  decide

/-- C10 witness: two settings records differing only in `uploadHost`
produce identical pipeline observables. -/
theorem c10_witness :
    exportPipeline { scriptPath := "s", uploadHost := "https://transfer.sh", autoOpen := true }
        ("/v") ("/v/N.md") fsEmpty ("x") true ("out")
      = exportPipeline { scriptPath := "s", uploadHost := "https://other.example", autoOpen := true }
        ("/v") ("/v/N.md") fsEmpty ("x") true ("out") :=
  c10_upload_host_independence.1 _ _ _ _ _ _ _ _ rfl rfl

end Md2Overleaf
